import Mathlib

/-!
Verification of the music-box note pipeline (`note_extractor.py`,
`cassette.py`, `ai_note_builder.py`, `tine.py`).

Shallow embedding conventions:
* Python floats are modelled by `ℚ` (exact real-number semantics of the
  arithmetic the code performs).
* Python dicts used as `pitch -> value` maps are modelled by association
  lists where a write prepends the new binding and `List.lookup` finds the
  most recent one; this matches Python dict lookup semantics exactly.
* External effectful collaborators (aubio pitch/onset detectors, the MP3
  decoder, the Anthropic API) supply the inputs of the embedded functions;
  they appear as explicit arguments (per-frame estimates, a parsed
  response, ...), never as stubs of code that lives in this repository.
-/

namespace MusicBox

/-- The valid music-box note names, from `Tine.__init__` (`tine.py`) and the
identical `Cassette.tine_notes` list (`cassette.py`). -/
def tineNotes : List String :=
  ["C4", "D4", "E4", "F4", "G4", "A4", "B4", "C5",
   "D5", "E5", "F5", "G5", "A5", "B5", "C6", "D6",
   "E6", "F6"]

/-- A note event `(time_in_sec, note_name)`, the pipeline's interchange
format. -/
structure NoteEvent where
  t : ℚ
  note : String
deriving DecidableEq, Repr

/-! ## Layout engine (`Cassette._generate_pins_from_notes`, cassette.py)

Cassette constants used by the pin generator (`Cassette.__init__`):
`cassette_rotation_seconds = 20.0`, `base_ring_height = 1.8`,
`pin_vertical_offset = 1.0`, `total_tine_width = 16.0`,
`tine_width = 16/18`, `pin_width = tine_width/2`,
`pin_height = tine_width/2`.  The derived
`min_note_angle_spacing = degrees(pin_width * 1.2 / cassette_radius)` is
irrational (it carries a factor `180/π`), so the generator below takes the
rotation duration and the minimum angular spacing as parameters; theorems
instantiate them as each claim requires. -/

def baseRingHeight : ℚ := 9/5
def pinVerticalOffset : ℚ := 1
def tineWidth : ℚ := 16/18
def pinWidth : ℚ := tineWidth / 2
def pinHeight : ℚ := tineWidth / 2

/-- `z_min = base_ring_height + pin_vertical_offset`. -/
def zMin : ℚ := baseRingHeight + pinVerticalOffset

/-- A placed pin: rotation angle in degrees, the note it strikes, the
note's lane index in `tineNotes`, and the z coordinate of the pin bottom
(`z_bottom` in the source). -/
structure Pin where
  angle : ℚ
  note : String
  lane : ℕ
  zBottom : ℚ
deriving DecidableEq, Repr

/-- `z_bottom = z_min + tine_width * note_index + centre_offset - pin_height/2`
with `centre_offset = pin_width/2 = pin_height/2`. -/
def zBottomOf (laneIdx : ℕ) : ℚ :=
  zMin + tineWidth * laneIdx + pinWidth / 2 - pinHeight / 2

/-- The pin emitted for an event: angle from the event time, lane and z
from the note's index in the vocabulary. -/
def mkPin (rot : ℚ) (e : NoteEvent) : Pin :=
  { angle := e.t / rot * 360, note := e.note, lane := tineNotes.indexOf e.note,
    zBottom := zBottomOf (tineNotes.indexOf e.note) }

@[simp] theorem mkPin_note (rot : ℚ) (e : NoteEvent) : (mkPin rot e).note = e.note := rfl

@[simp] theorem mkPin_angle (rot : ℚ) (e : NoteEvent) :
    (mkPin rot e).angle = e.t / rot * 360 := rfl

/-- The same-note overlap test of `_generate_pins_from_notes`: skip when
the note already has a recorded angle (`note_name in last_note_angle`) and
the plain absolute difference is below the minimum spacing. -/
def skipPin (minSp angle : ℚ) : Option ℚ → Bool
  | some prev => |angle - prev| < minSp
  | none => false

/-- The loop body of `_generate_pins_from_notes`: walk the events in order,
skip notes outside the vocabulary, convert time to an angle, skip an event
whose angle collides with the last pin placed for the same note
(`skipPin`), otherwise emit a pin and update the per-note last-angle
map. -/
def genPinsAux (rot minSp : ℚ) : List NoteEvent → List (String × ℚ) → List Pin
  | [], _ => []
  | e :: rest, lastAngle =>
    if e.note ∈ tineNotes then
      let angle : ℚ := e.t / rot * 360
      if skipPin minSp angle (lastAngle.lookup e.note) then
        genPinsAux rot minSp rest lastAngle
      else
        mkPin rot e :: genPinsAux rot minSp rest ((e.note, angle) :: lastAngle)
    else
      genPinsAux rot minSp rest lastAngle

/-- `_generate_pins_from_notes`, starting from an empty last-angle map. -/
def genPins (rot minSp : ℚ) (events : List NoteEvent) : List Pin :=
  genPinsAux rot minSp events []

/-- Circular (on-drum) angular distance between two angles in `[0, 360)`. -/
def circDist (a b : ℚ) : ℚ := min |a - b| (360 - |a - b|)

/-- C1: Scenario A.  With rotation duration 20 s and minimum angular
spacing 3°, the events `[(0.0,"C4"), (0.05,"C4"), (0.4,"E5")]` yield
exactly two pins: `(0°, C4, lane 0)` and `(7.2°, E5, lane 9)`.  The C4
event at 0.05 s maps to angle 0.9°, whose gap to the previous C4 pin at 0°
is 0.9° < 3°, so it is dropped. -/
theorem scenarioA_pins :
    genPins 20 3 [⟨0, "C4"⟩, ⟨1/20, "C4"⟩, ⟨2/5, "E5"⟩] =
      [{ angle := 0, note := "C4", lane := 0, zBottom := 14/5 },
       { angle := 36/5, note := "E5", lane := 9, zBottom := 54/5 }] ∧
    ((1 : ℚ)/20) / 20 * 360 = 9/10 ∧ |(9 : ℚ)/10 - 0| < 3 := by
  refine ⟨?_, by norm_num, by rw [abs_lt]; norm_num⟩
  simp [genPins, genPinsAux, mkPin, skipPin, tineNotes, zBottomOf, zMin,
    baseRingHeight, pinVerticalOffset, tineWidth, pinWidth, pinHeight,
    List.lookup, List.indexOf, List.findIdx, List.findIdx.go, abs]
  norm_num

/-- C10: the same-pitch collision check uses the plain absolute angle
difference with no 360° wraparound.  Two C4 events at 0.0 s and 19.99 s of
a 20 s rotation map to angles 0° and 359.82°; their plain difference
359.82° passes the 3° spacing check, so both pins are emitted, even though
their circular (on-drum) distance is only 0.18° < 3°. -/
theorem collision_check_no_wraparound :
    (genPins 20 3 [⟨0, "C4"⟩, ⟨1999/100, "C4"⟩]).map Pin.angle =
      [0, 17991/50] ∧
    circDist 0 (17991/50) < 3 ∧ ¬ |(17991 : ℚ)/50 - 0| < 3 := by
  refine ⟨?_, ?_, ?_⟩
  · simp [genPins, genPinsAux, mkPin, skipPin, tineNotes, List.lookup, abs]
    norm_num
  · simp [circDist, abs]
    norm_num
  · rw [abs_lt]
    norm_num

/-! ## Time scaler ("squeeze", `extract_notes_from_mp3` tail, note_extractor.py)

```python
if squeeze_to_duration and note_events:
    original_duration = note_events[-1][0]  # Last event's timestamp
    if original_duration > 0:               # Prevent division by zero
        scale_factor = squeeze_to_duration / original_duration
        note_events = [(t * scale_factor, note) for t, note in note_events]
```

`squeeze_to_duration` is an optional float (`None` by default); Python's
truthiness test skips the branch when it is `None` **or** `0.0`, and when
the event list is empty. -/

/-- Timestamp of the last event of a list (`note_events[-1][0]`); `0` for
an empty list, which the callers below never consult. -/
def lastTimeOfList : List NoteEvent → ℚ
  | [] => 0
  | [e] => e.t
  | _ :: e :: es => lastTimeOfList (e :: es)

/-- The squeeze transform at the end of `extract_notes_from_mp3`. -/
def squeezeNotes (target : Option ℚ) (events : List NoteEvent) : List NoteEvent :=
  match target, events with
  | some T, e :: es =>
    if T = 0 then e :: es
    else
      let M := lastTimeOfList (e :: es)
      if 0 < M then (e :: es).map (fun ev => ⟨ev.t * (T / M), ev.note⟩)
      else e :: es
  | _, evs => evs

/-- C3 counterexample: the claim quantifies over *every* target duration
`T`, but Python's truthiness guard (`if squeeze_to_duration and ...`)
skips scaling when `T = 0`.  For the singleton sequence `[(1, "C4")]`
(max timestamp `M = 1 > 0`) and target `T = 0`, the claimed formula
`t * (T / M)` would give time `0`, yet the code returns the input
unchanged. -/
theorem squeeze_zero_target_counterexample :
    squeezeNotes (some 0) [⟨1, "C4"⟩] = [⟨1, "C4"⟩] ∧
    squeezeNotes (some 0) [⟨1, "C4"⟩] ≠ [⟨(1 : ℚ) * (0 / 1), "C4"⟩] := by
  refine ⟨rfl, ?_⟩
  intro h
  rw [show squeezeNotes (some 0) [⟨1, "C4"⟩] = [⟨1, "C4"⟩] from rfl] at h
  simp [NoteEvent.mk.injEq] at h

/-- In a time-sorted event list the last timestamp is the maximum one. -/
theorem lastTimeOfList_is_max :
    (l : List NoteEvent) → l.Chain' (fun a b => a.t ≤ b.t) →
    ∀ e ∈ l, e.t ≤ lastTimeOfList l
  | [], _, e, he => absurd he (List.not_mem_nil e)
  | [x], _, e, he => by
      rw [List.mem_singleton] at he
      subst he
      exact le_of_eq rfl
  | a :: b :: es, h, e, he => by
      rw [List.chain'_cons] at h
      have ih := lastTimeOfList_is_max (b :: es) h.2
      rcases List.mem_cons.mp he with rfl | he'
      · exact le_trans h.1 (ih b (List.mem_cons_self b es))
      · exact ih e he'

/-- C3 amended: for a requested *non-zero* target `T` and a non-empty,
time-sorted sequence whose last (hence maximum) timestamp `M` is positive,
the squeeze replaces each time `t` by `t * (T / M)` and leaves pitches
unchanged; when no squeeze is requested (`None` or `0`), or the sequence
is empty, or `M = 0`, the transform is the identity and no division
occurs.  The sortedness hypothesis is what makes the last timestamp the
maximum one, as the claim phrases it (the source sorts the sequence just
before this step). -/
theorem squeeze_amended (T : ℚ) (events : List NoteEvent)
    (hsort : events.Chain' (fun a b => a.t ≤ b.t)) :
    (T ≠ 0 → events ≠ [] → 0 < lastTimeOfList events →
      squeezeNotes (some T) events =
        events.map (fun ev => ⟨ev.t * (T / lastTimeOfList events), ev.note⟩)) ∧
    (∀ e ∈ events, e.t ≤ lastTimeOfList events) ∧
    squeezeNotes none events = events ∧
    (lastTimeOfList events ≤ 0 → squeezeNotes (some T) events = events) ∧
    squeezeNotes (some T) [] = [] := by
  refine ⟨?_, lastTimeOfList_is_max events hsort, ?_, ?_, rfl⟩
  · intro hT hne hM
    match events, hne with
    | e :: es, _ =>
      simp only [squeezeNotes, if_neg hT, if_pos hM]
  · match events with
    | [] => rfl
    | e :: es => rfl
  · intro hM
    match events with
    | [] => rfl
    | e :: es =>
      simp only [squeezeNotes, if_neg (not_lt.mpr hM), ite_self]

/-- Witness for `squeeze_amended`, on Scenario B's numbers: max timestamp
26.7 s squeezed to 20 s sends the 26.7 s event to exactly 20 s and keeps
0 s at 0 s. -/
theorem squeeze_amended_witness :
    squeezeNotes (some 20) [⟨0, "C4"⟩, ⟨267/10, "E5"⟩] = [⟨0, "C4"⟩, ⟨20, "E5"⟩] := by
  have h := (squeeze_amended 20 [⟨0, "C4"⟩, ⟨267/10, "E5"⟩]
      (by simp [List.chain'_cons]; norm_num)).1
      (by norm_num) (by simp) (by norm_num [lastTimeOfList])
  rw [h]
  norm_num [lastTimeOfList, NoteEvent.mk.injEq]

/-! ## Frame-wise pitch fusion

Two variants exist in the repository:
* `note_extractor.py` line 106:
  `pitch = p1 if abs(p1 - p2) > 50 else (p1 + p2) / 2`
* `cassette.py` lines 326-329:
  `if abs(pitch1 - pitch2) < 50: pitch = (pitch1 + pitch2) / 2
   else: pitch = pitch1 if pitch1 > 0 else pitch2`
-/

/-- Pitch fusion of `extract_notes_from_mp3` (note_extractor.py). -/
def fusePitchExtractor (p1 p2 : ℚ) : ℚ :=
  if |p1 - p2| > 50 then p1 else (p1 + p2) / 2

/-- Pitch fusion of `Cassette._extract_notes_from_mp3` (cassette.py). -/
def fusePitchCassette (p1 p2 : ℚ) : ℚ :=
  if |p1 - p2| < 50 then (p1 + p2) / 2 else if p1 > 0 then p1 else p2

/-- C7 counterexample: with estimates `p1 = 0`, `p2 = 100` the detectors
disagree by more than the 50 Hz tolerance and the only non-zero estimate
is `100`, yet `note_extractor.py`'s fusion returns `p1 = 0`, not the
non-zero estimate. -/
theorem fusion_prefers_first_counterexample :
    |(0 : ℚ) - 100| > 50 ∧ fusePitchExtractor 0 100 = 0 ∧
    fusePitchExtractor 0 100 ≠ 100 := by
  refine ⟨by rw [abs_sub_comm]; norm_num [abs_of_nonneg], ?_, ?_⟩ <;>
    simp [fusePitchExtractor, abs_sub_comm] <;> norm_num [abs_of_nonneg]

/-- C7 amended: when the two estimates agree within the tolerance both
variants average them (boundary `|p1-p2| = 50` averages in the extractor,
not in the cassette); on disagreement the extractor always returns the
first (yinfft) estimate, even when it is zero, while the cassette variant
returns the first estimate if it is positive and the second otherwise. -/
theorem fusion_amended (p1 p2 : ℚ) :
    (|p1 - p2| ≤ 50 → fusePitchExtractor p1 p2 = (p1 + p2) / 2) ∧
    (|p1 - p2| > 50 → fusePitchExtractor p1 p2 = p1) ∧
    (|p1 - p2| < 50 → fusePitchCassette p1 p2 = (p1 + p2) / 2) ∧
    (50 ≤ |p1 - p2| → 0 < p1 → fusePitchCassette p1 p2 = p1) ∧
    (50 ≤ |p1 - p2| → p1 ≤ 0 → fusePitchCassette p1 p2 = p2) := by
  refine ⟨fun h => ?_, fun h => ?_, fun h => ?_, fun h h1 => ?_, fun h h1 => ?_⟩
  · rw [fusePitchExtractor, if_neg (not_lt.mpr h)]
  · rw [fusePitchExtractor, if_pos h]
  · rw [fusePitchCassette, if_pos h]
  · rw [fusePitchCassette, if_neg (not_lt.mpr h), if_pos h1]
  · rw [fusePitchCassette, if_neg (not_lt.mpr h), if_neg (not_lt.mpr h1)]

/-- Witness for `fusion_amended` at `(0, 100)`: the extractor returns the
zero first estimate, the cassette variant returns the non-zero second
one. -/
theorem fusion_amended_witness :
    fusePitchExtractor 0 100 = 0 ∧ fusePitchCassette 0 100 = 100 := by
  have h50 : |(0 : ℚ) - 100| > 50 := by
    rw [abs_sub_comm]; norm_num [abs_of_nonneg]
  exact ⟨(fusion_amended 0 100).2.1 h50,
    (fusion_amended 0 100).2.2.2.2 (le_of_lt h50) (le_refl 0)⟩

/-! ## Extraction loop (`extract_notes_from_mp3`, note_extractor.py 97-141)

The aubio pitch/onset detectors are external C code operating on audio
frames; their per-frame outputs `(p1, p2, is_onset)` are the loop's inputs
and appear here as a list of `Frame`s.  `freq_to_note_name` is the
equal-tempered quantizer `round(69 + 12*log2(f/440))`, a transcendental
function of the frequency; the loop model takes it as an explicit function
argument `f2n` and every theorem below quantifies over it, so nothing
proved depends on its values.  Frame `k` starts at sample `k * hop_size`
and its time is `k * hop_size / sr`. -/

/-- Detector outputs for one frame: the two pitch estimates and the
truthiness of the onset strength. -/
structure Frame where
  p1 : ℚ
  p2 : ℚ
  onset : Bool
deriving Repr

/-- Extraction parameters: sample rate, hop size (512 in the source),
analysis bound `max_time`, `min_time_between_notes` (default 0.15) and
`pitch_stability_threshold` (default 9.0). -/
structure ExtractConfig where
  sr : ℚ
  hop : ℚ
  maxTime : ℚ
  minGap : ℚ
  stabThr : ℚ

/-- Loop state: the rolling pitch history, the per-note last-accepted-time
dict, and the accumulated note events. -/
structure ExtractState where
  history : List ℚ
  lastTime : List (String × ℚ)
  events : List NoteEvent

def initState : ExtractState := ⟨[], [], []⟩

/-- `pitch_history.append(pitch)` followed by `pop(0)` when the buffer
exceeds `history_size = 3`. -/
def pushHistory (h : List ℚ) (p : ℚ) : List ℚ :=
  let h2 := h ++ [p]
  if h2.length > 3 then h2.tail else h2

/-- Mean of the pitch history (`sum(pitch_history) / len(pitch_history)`). -/
def qMean (xs : List ℚ) : ℚ := xs.sum / xs.length

/-- Population variance, the square of `np.std`. -/
def qVariance (xs : List ℚ) : ℚ :=
  ((xs.map (fun x => (x - qMean xs) ^ 2)).sum) / xs.length

/-- Decides `np.std(xs) < thr` exactly over ℚ: the standard deviation is
the non-negative square root of the variance, so `std < thr` iff
`0 < thr ∧ variance < thr²`. -/
def stdLt (xs : List ℚ) (thr : ℚ) : Bool :=
  decide (0 < thr ∧ qVariance xs < thr ^ 2)

/-- One iteration of the extraction loop at frame time `t`: fuse the two
pitch estimates, push the fused value into the rolling history, and — when
the frame is an onset, the history is full and stable, the quantized note
name exists and is in the vocabulary, and the per-note spacing check
passes — append the event and update the last-accepted-time dict. -/
def processFrame (cfg : ExtractConfig) (f2n : ℚ → Option String)
    (t : ℚ) (fr : Frame) (s : ExtractState) : ExtractState :=
  let pitch := fusePitchExtractor fr.p1 fr.p2
  let hist := pushHistory s.history pitch
  if fr.onset = true ∧ hist.length = 3 then
    if stdLt hist cfg.stabThr then
      match f2n (qMean hist) with
      | some name =>
        if name ∈ tineNotes then
          if cfg.minGap ≤ t - ((s.lastTime.lookup name).getD (-cfg.minGap)) then
            { history := hist, lastTime := (name, t) :: s.lastTime,
              events := s.events ++ [⟨t, name⟩] }
          else { s with history := hist }
        else { s with history := hist }
      | none => { s with history := hist }
    else { s with history := hist }
  else { s with history := hist }

/-- The frame loop: frame `k` runs at time `k * hop / sr`; the loop breaks
at the first frame past `max_time` (`if frame_time > max_time: break`). -/
def runFrames (cfg : ExtractConfig) (f2n : ℚ → Option String) :
    ℕ → List Frame → ExtractState → ExtractState
  | _, [], s => s
  | k, fr :: rest, s =>
    let t := (k : ℚ) * cfg.hop / cfg.sr
    if cfg.maxTime < t then s
    else runFrames cfg f2n (k + 1) rest (processFrame cfg f2n t fr s)

/-- `extract_notes_from_mp3`: run the loop from frame 0 with empty state,
sort the events by time (`note_events.sort(key=lambda x: x[0])`, a stable
sort), then apply the optional squeeze. -/
def extractNotes (cfg : ExtractConfig) (f2n : ℚ → Option String)
    (frames : List Frame) (squeezeTo : Option ℚ) : List NoteEvent :=
  squeezeNotes squeezeTo
    (List.insertionSort (fun a b => a.t ≤ b.t)
      (runFrames cfg f2n 0 frames initState).events)

theorem lookup_cons_self {k : String} {v : ℚ} {l : List (String × ℚ)} :
    List.lookup k ((k, v) :: l) = some v := by
  simp [List.lookup]

theorem lookup_cons_ne {k p : String} {v : ℚ} {l : List (String × ℚ)} (h : p ≠ k) :
    List.lookup p ((k, v) :: l) = List.lookup p l := by
  simp [List.lookup, beq_eq_false_iff_ne.mpr h]

/-- Each loop iteration either leaves the dict and the event list
untouched, or appends one event `(t, name)` with `name` in the vocabulary
that passed the spacing check against the dict, updating the dict
accordingly. -/
theorem processFrame_cases (cfg : ExtractConfig) (f2n : ℚ → Option String)
    (t : ℚ) (fr : Frame) (s : ExtractState) :
    ((processFrame cfg f2n t fr s).lastTime = s.lastTime ∧
     (processFrame cfg f2n t fr s).events = s.events) ∨
    (∃ name, name ∈ tineNotes ∧
      cfg.minGap ≤ t - ((s.lastTime.lookup name).getD (-cfg.minGap)) ∧
      (processFrame cfg f2n t fr s).lastTime = (name, t) :: s.lastTime ∧
      (processFrame cfg f2n t fr s).events = s.events ++ [⟨t, name⟩]) := by
  simp only [processFrame]
  split
  · split
    · split
      · rename_i name heq
        split
        · split
          · exact Or.inr ⟨name, by assumption, by assumption, rfl, rfl⟩
          · exact Or.inl ⟨rfl, rfl⟩
        · exact Or.inl ⟨rfl, rfl⟩
      · exact Or.inl ⟨rfl, rfl⟩
    · exact Or.inl ⟨rfl, rfl⟩
  · exact Or.inl ⟨rfl, rfl⟩

/-- Time of the last event for note `p` in an event list; the value the
`last_note_time` dict must agree with. -/
def lastOf (p : String) (evs : List NoteEvent) : Option ℚ :=
  ((evs.filter fun e => e.note == p).getLast?).map NoteEvent.t

theorem filter_singleton_self (t : ℚ) (p : String) :
    List.filter (fun e => e.note == p) [NoteEvent.mk t p] = [NoteEvent.mk t p] := by
  simp

theorem filter_singleton_ne (t : ℚ) (q p : String) (h : q ≠ p) :
    List.filter (fun e => e.note == p) [NoteEvent.mk t q] = [] := by
  simp [h]

/-- The loop invariant behind the temporal-spacing property: the
`last_note_time` dict holds exactly the time of the last accepted event of
each note, and consecutive same-note accepted events are at least
`minGap` apart. -/
def SpacingInv (minGap : ℚ) (s : ExtractState) : Prop :=
  (∀ p : String, s.lastTime.lookup p = lastOf p s.events) ∧
  (∀ p : String, (s.events.filter fun e => e.note == p).Chain'
      (fun a b => minGap ≤ b.t - a.t))

theorem processFrame_spacingInv (cfg : ExtractConfig) (f2n : ℚ → Option String)
    (t : ℚ) (fr : Frame) (s : ExtractState) (h : SpacingInv cfg.minGap s) :
    SpacingInv cfg.minGap (processFrame cfg f2n t fr s) := by
  rcases processFrame_cases cfg f2n t fr s with ⟨hl, he⟩ | ⟨name, hmem, hgap, hl, he⟩
  · rw [SpacingInv, hl, he]; exact h
  · refine ⟨fun p => ?_, fun p => ?_⟩
    · rw [hl, he, lastOf, List.filter_append]
      by_cases hp : p = name
      · subst hp
        rw [lookup_cons_self, filter_singleton_self, List.getLast?_concat]
        rfl
      · rw [lookup_cons_ne hp, filter_singleton_ne t name p (fun hc => hp hc.symm),
          List.append_nil]
        exact h.1 p
    · rw [he, List.filter_append]
      by_cases hp : p = name
      · subst hp
        rw [filter_singleton_self, List.chain'_append]
        refine ⟨h.2 p, by simp, ?_⟩
        intro x hx y hy
        have hx2 : (List.filter (fun e => e.note == p) s.events).getLast? = some x :=
          Option.mem_def.mp hx
        rw [List.head?_cons] at hy
        have hy2 : y = NoteEvent.mk t p := (Option.some.inj (Option.mem_def.mp hy)).symm
        have hlk : (s.lastTime.lookup p).getD (-cfg.minGap) = x.t := by
          rw [h.1 p, lastOf, hx2]
          rfl
        rw [hlk] at hgap
        rw [hy2]
        exact hgap
      · rw [filter_singleton_ne t name p (fun hc => hp hc.symm), List.append_nil]
        exact h.2 p

theorem runFrames_spacingInv (cfg : ExtractConfig) (f2n : ℚ → Option String) :
    ∀ (k : ℕ) (frames : List Frame) (s : ExtractState),
      SpacingInv cfg.minGap s → SpacingInv cfg.minGap (runFrames cfg f2n k frames s)
  | _, [], _, h => h
  | k, fr :: rest, s, h => by
    rw [runFrames]
    split
    · exact h
    · exact runFrames_spacingInv cfg f2n (k + 1) rest _
        (processFrame_spacingInv cfg f2n _ fr s h)

/-- Vocabulary and time-range invariant of the loop: every accumulated
event has its note in the vocabulary and its time in `[0, max_time]`. -/
def EventsBound (cfg : ExtractConfig) (evs : List NoteEvent) : Prop :=
  ∀ e ∈ evs, e.note ∈ tineNotes ∧ 0 ≤ e.t ∧ e.t ≤ cfg.maxTime

theorem runFrames_eventsBound (cfg : ExtractConfig) (f2n : ℚ → Option String)
    (hsr : 0 < cfg.sr) (hhop : 0 ≤ cfg.hop) :
    ∀ (k : ℕ) (frames : List Frame) (s : ExtractState),
      EventsBound cfg s.events → EventsBound cfg (runFrames cfg f2n k frames s).events
  | _, [], _, h => h
  | k, fr :: rest, s, h => by
    rw [runFrames]
    split
    · exact h
    · rename_i hle
      refine runFrames_eventsBound cfg f2n hsr hhop (k + 1) rest _ ?_
      rcases processFrame_cases cfg f2n ((k : ℚ) * cfg.hop / cfg.sr) fr s with
        ⟨_, he⟩ | ⟨name, hmem, _, _, he⟩
      · rw [he]; exact h
      · rw [he]
        intro e he2
        rcases List.mem_append.mp he2 with hin | hin
        · exact h e hin
        · rw [List.mem_singleton.mp hin]
          refine ⟨hmem, ?_, not_lt.mp hle⟩
          exact div_nonneg (mul_nonneg (Nat.cast_nonneg k) hhop) (le_of_lt hsr)

/-- Times already accumulated lie strictly below the current frame time,
and are strictly increasing: the loop emits at most one event per frame,
at the frame's time. -/
theorem runFrames_sorted (cfg : ExtractConfig) (f2n : ℚ → Option String)
    (hsr : 0 < cfg.sr) (hhop : 0 < cfg.hop) :
    ∀ (k : ℕ) (frames : List Frame) (s : ExtractState),
      s.events.Pairwise (fun a b => a.t < b.t) →
      (∀ e ∈ s.events, e.t < (k : ℚ) * cfg.hop / cfg.sr) →
      (runFrames cfg f2n k frames s).events.Pairwise (fun a b => a.t < b.t)
  | _, [], _, hp, _ => hp
  | k, fr :: rest, s, hp, hb => by
    rw [runFrames]
    split
    · exact hp
    · have hstep : (k : ℚ) * cfg.hop / cfg.sr < ((k + 1 : ℕ) : ℚ) * cfg.hop / cfg.sr := by
        apply (div_lt_div_iff_of_pos_right hsr).mpr
        apply mul_lt_mul_of_pos_right _ hhop
        exact_mod_cast Nat.lt_succ_self k
      refine runFrames_sorted cfg f2n hsr hhop (k + 1) rest _ ?_ ?_
      · rcases processFrame_cases cfg f2n ((k : ℚ) * cfg.hop / cfg.sr) fr s with
          ⟨_, he⟩ | ⟨name, _, _, _, he⟩
        · rw [he]; exact hp
        · rw [he, List.pairwise_append]
          refine ⟨hp, List.pairwise_singleton _ _, ?_⟩
          intro a ha b hb2
          rw [List.mem_singleton.mp hb2]
          exact hb a ha
      · rcases processFrame_cases cfg f2n ((k : ℚ) * cfg.hop / cfg.sr) fr s with
          ⟨_, he⟩ | ⟨name, _, _, _, he⟩
        · rw [he]
          intro e he2
          exact lt_trans (hb e he2) hstep
        · rw [he]
          intro e he2
          rcases List.mem_append.mp he2 with hin | hin
          · exact lt_trans (hb e hin) hstep
          · rw [List.mem_singleton.mp hin]
            exact hstep

/-- The events produced by the frame loop are already strictly sorted, so
the source's final `sort(key=lambda x: x[0])` is the identity on them. -/
theorem extractNotes_sorted_eq (cfg : ExtractConfig) (f2n : ℚ → Option String)
    (frames : List Frame) (hsr : 0 < cfg.sr) (hhop : 0 < cfg.hop) :
    List.insertionSort (fun a b => a.t ≤ b.t)
        (runFrames cfg f2n 0 frames initState).events =
      (runFrames cfg f2n 0 frames initState).events := by
  have hp := runFrames_sorted cfg f2n hsr hhop 0 frames initState
    (by simp [initState]) (by simp [initState])
  exact List.Sorted.insertionSort_eq (hp.imp fun h => le_of_lt h)

theorem extractNotes_none (cfg : ExtractConfig) (f2n : ℚ → Option String)
    (frames : List Frame) (hsr : 0 < cfg.sr) (hhop : 0 < cfg.hop) :
    extractNotes cfg f2n frames none = (runFrames cfg f2n 0 frames initState).events := by
  rw [extractNotes, extractNotes_sorted_eq cfg f2n frames hsr hhop]
  rfl

/-- Bounds survive the squeeze: with a positive target `T`, every event of
the squeezed list keeps a note of the input list and a time in `[0, T]`. -/
theorem squeezeNotes_mem (T : ℚ) (hT : 0 < T) (R : List NoteEvent)
    (hchain : R.Chain' (fun a b => a.t ≤ b.t)) (hnn : ∀ e ∈ R, 0 ≤ e.t) :
    ∀ e ∈ squeezeNotes (some T) R,
      (0 ≤ e.t ∧ e.t ≤ T) ∧ ∃ ev ∈ R, e.note = ev.note := by
  intro e he
  cases R with
  | nil => simp [squeezeNotes] at he
  | cons x xs =>
    simp only [squeezeNotes, if_neg (ne_of_gt hT)] at he
    by_cases hM : 0 < lastTimeOfList (x :: xs)
    · rw [if_pos hM] at he
      obtain ⟨ev, hev, rfl⟩ := List.mem_map.mp he
      have hevM : ev.t ≤ lastTimeOfList (x :: xs) :=
        lastTimeOfList_is_max _ hchain ev hev
      refine ⟨⟨mul_nonneg (hnn ev hev) (div_nonneg hT.le hM.le), ?_⟩, ev, hev, rfl⟩
      calc ev.t * (T / lastTimeOfList (x :: xs))
          ≤ lastTimeOfList (x :: xs) * (T / lastTimeOfList (x :: xs)) :=
            mul_le_mul_of_nonneg_right hevM (div_nonneg hT.le hM.le)
        _ = T := by rw [mul_comm]; exact div_mul_cancel₀ T (ne_of_gt hM)
    · rw [if_neg hM] at he
      refine ⟨⟨hnn e he, ?_⟩, e, he, rfl⟩
      exact le_trans (lastTimeOfList_is_max _ hchain e he)
        (le_trans (not_lt.mp hM) hT.le)

/-- C4: every pair of consecutive same-pitch events in the extraction
pipeline's output is at least `min_time_between_notes` apart: a candidate
is accepted only when `frame_time - last_note_time[name] ≥
min_time_between_notes`, and rejected candidates simply do not appear in
the output (the loop's only failure mode is not to append — nothing is
raised).  `f2n` ranges over all quantizer functions and the frames over
all detector outputs. -/
theorem extraction_spacing (cfg : ExtractConfig) (f2n : ℚ → Option String)
    (frames : List Frame) (p : String) (hsr : 0 < cfg.sr) (hhop : 0 < cfg.hop) :
    ((extractNotes cfg f2n frames none).filter fun e => e.note == p).Chain'
      (fun a b => cfg.minGap ≤ b.t - a.t) := by
  rw [extractNotes_none cfg f2n frames hsr hhop]
  refine (runFrames_spacingInv cfg f2n 0 frames initState ⟨fun _ => rfl, fun _ => ?_⟩).2 p
  simp [initState]

/-- Witness for `extraction_spacing` at the source's parameters
(sr 44100 Hz, hop 512, max time 20 s, min gap 0.15 s, stability 9 Hz). -/
theorem extraction_spacing_witness :
    ((extractNotes ⟨44100, 512, 20, 15/100, 9⟩ (fun _ => some "C4")
        [⟨440, 440, true⟩] none).filter fun e => e.note == "C4").Chain'
      (fun a b => (15 : ℚ)/100 ≤ b.t - a.t) :=
  extraction_spacing ⟨44100, 512, 20, 15/100, 9⟩ (fun _ => some "C4")
    [⟨440, 440, true⟩] "C4" (by norm_num) (by norm_num)

/-- C8: every event emitted by the extraction pipeline has its note in the
vocabulary and its time in `[0, max_time]` (frames past `max_time` break
the loop before being analyzed; a quantized name outside the vocabulary is
dropped, not emitted).  When a squeeze to a positive duration `T` is
requested, the emitted times lie in `[0, T]` instead. -/
theorem extraction_vocab_and_bounds (cfg : ExtractConfig) (f2n : ℚ → Option String)
    (frames : List Frame) (hsr : 0 < cfg.sr) (hhop : 0 < cfg.hop) :
    (∀ e ∈ extractNotes cfg f2n frames none,
        e.note ∈ tineNotes ∧ 0 ≤ e.t ∧ e.t ≤ cfg.maxTime) ∧
    (∀ T : ℚ, 0 < T → ∀ e ∈ extractNotes cfg f2n frames (some T),
        e.note ∈ tineNotes ∧ 0 ≤ e.t ∧ e.t ≤ T) := by
  have hbound := runFrames_eventsBound cfg f2n hsr hhop.le 0 frames initState
    (by intro e he; simp [initState] at he)
  constructor
  · rw [extractNotes_none cfg f2n frames hsr hhop]
    exact hbound
  · intro T hT e he
    rw [extractNotes, extractNotes_sorted_eq cfg f2n frames hsr hhop] at he
    have hpair := runFrames_sorted cfg f2n hsr hhop 0 frames initState
      (by simp [initState]) (by simp [initState])
    have hchain := (hpair.imp fun h => le_of_lt h).chain'
    obtain ⟨⟨h0, hleT⟩, ev, hev, hnote⟩ :=
      squeezeNotes_mem T hT _ hchain (fun x hx => (hbound x hx).2.1) e he
    exact ⟨hnote ▸ (hbound ev hev).1, h0, hleT⟩

/-- Witness for `extraction_vocab_and_bounds` at the source's parameters. -/
theorem extraction_vocab_and_bounds_witness :
    EventsBound ⟨44100, 512, 20, 15/100, 9⟩
      (extractNotes ⟨44100, 512, 20, 15/100, 9⟩ (fun _ => some "C4")
        [⟨440, 440, true⟩] none) :=
  (extraction_vocab_and_bounds ⟨44100, 512, 20, 15/100, 9⟩ (fun _ => some "C4")
    [⟨440, 440, true⟩] (by norm_num) (by norm_num)).1

/-! ## Layout-engine invariants (C2, C9) -/

/-- Emission facts: when the overlap test does not fire, either the note
had no recorded angle, or the recorded angle is at least `minSp` away. -/
theorem skipPin_false {minSp angle : ℚ} {o : Option ℚ}
    (h : skipPin minSp angle o = false) :
    o = none ∨ ∃ prev, o = some prev ∧ minSp ≤ |angle - prev| := by
  cases o with
  | none => exact Or.inl rfl
  | some prev =>
    refine Or.inr ⟨prev, rfl, ?_⟩
    have := of_decide_eq_false h
    exact not_lt.mp this

/-- Consecutive same-note pins are at least `minSp` apart in plain
absolute angle difference, and the first emitted pin of a note keeps that
distance from the angle recorded for the note in the incoming map: the
emission guard `abs(angle_deg - prev_angle) >= min_note_angle_spacing` is
exactly what each step re-establishes. -/
theorem genPinsAux_chain_abs (rot minSp : ℚ) (p : String) :
    ∀ (evs : List NoteEvent) (st : List (String × ℚ)),
      ((genPinsAux rot minSp evs st).filter fun pin => pin.note == p).Chain'
          (fun a b => minSp ≤ |b.angle - a.angle|) ∧
      (∀ aPrev, st.lookup p = some aPrev →
        ∀ b ∈ ((genPinsAux rot minSp evs st).filter fun pin => pin.note == p).head?,
          minSp ≤ |b.angle - aPrev|)
  | [], st => by
    refine ⟨by simp [genPinsAux], ?_⟩
    intro aPrev _ b hb
    simp [genPinsAux] at hb
  | e :: rest, st => by
    by_cases hmem : e.note ∈ tineNotes
    · by_cases hskip : skipPin minSp (e.t / rot * 360) (List.lookup e.note st) = true
      · simp only [genPinsAux, if_pos hmem, hskip, if_true]
        exact genPinsAux_chain_abs rot minSp p rest st
      · rw [Bool.not_eq_true] at hskip
        simp only [genPinsAux, if_pos hmem, hskip, Bool.false_eq_true, if_false]
        have ih := genPinsAux_chain_abs rot minSp p rest
          ((e.note, e.t / rot * 360) :: st)
        rw [List.filter_cons]
        by_cases hp : e.note = p
        · have hcond : (e.note == p) = true := beq_iff_eq.mpr hp
          rw [mkPin_note, if_pos hcond]
          constructor
          · rw [List.chain'_cons']
            refine ⟨fun b hb => ?_, ih.1⟩
            have hlkc : List.lookup p ((e.note, e.t / rot * 360) :: st) =
                some (e.t / rot * 360) := by
              rw [hp]
              exact lookup_cons_self
            have := ih.2 (e.t / rot * 360) hlkc b hb
            simpa using this
          · intro aPrev hPrev b hb
            rw [List.head?_cons] at hb
            have hbv := (Option.some.inj (Option.mem_def.mp hb)).symm
            rw [← hp] at hPrev
            rcases skipPin_false hskip with hnone | ⟨prev, hsome, hfar⟩
            · rw [hPrev] at hnone; cases hnone
            · rw [hPrev] at hsome
              rw [hbv, mkPin_angle, Option.some.inj hsome]
              exact hfar
        · have hcond : (e.note == p) = false := beq_eq_false_iff_ne.mpr hp
          rw [mkPin_note, hcond, if_neg Bool.false_ne_true]
          refine ⟨ih.1, fun aPrev hPrev b hb => ?_⟩
          refine ih.2 aPrev ?_ b hb
          rw [lookup_cons_ne (fun hc => hp hc.symm)]
          exact hPrev
    · simp only [genPinsAux, if_neg hmem]
      exact genPinsAux_chain_abs rot minSp p rest st

/-- Every emitted pin carries the angle and note of its source event, in
input order: the `(angle, note)` trace of the output is a sublist of the
events' trace. -/
theorem genPinsAux_sublist (rot minSp : ℚ) :
    ∀ (evs : List NoteEvent) (st : List (String × ℚ)),
      List.Sublist ((genPinsAux rot minSp evs st).map fun pin => (pin.angle, pin.note))
        (evs.map fun e => (e.t / rot * 360, e.note))
  | [], _ => by simp [genPinsAux]
  | e :: rest, st => by
    by_cases hmem : e.note ∈ tineNotes
    · by_cases hskip : skipPin minSp (e.t / rot * 360) (List.lookup e.note st) = true
      · simp only [genPinsAux, if_pos hmem, hskip, if_true, List.map_cons]
        exact (genPinsAux_sublist rot minSp rest st).cons _
      · rw [Bool.not_eq_true] at hskip
        simp only [genPinsAux, if_pos hmem, hskip, Bool.false_eq_true, if_false,
          List.map_cons, mkPin_angle, mkPin_note]
        exact (genPinsAux_sublist rot minSp rest _).cons₂ _
    · simp only [genPinsAux, if_neg hmem, List.map_cons]
      exact (genPinsAux_sublist rot minSp rest st).cons _

/-- For a time-sorted input and a positive rotation duration the emitted
pin angles are non-decreasing. -/
theorem genPinsAux_angles_mono (rot minSp : ℚ) (evs : List NoteEvent)
    (st : List (String × ℚ)) (hrot : 0 < rot)
    (hsort : evs.Pairwise (fun a b => a.t ≤ b.t)) :
    (genPinsAux rot minSp evs st).Pairwise (fun a b => a.angle ≤ b.angle) := by
  have h1 : (evs.map fun e => (e.t / rot * 360, e.note)).Pairwise
      (fun x y : ℚ × String => x.1 ≤ y.1) := by
    rw [List.pairwise_map]
    refine hsort.imp fun hab => ?_
    exact mul_le_mul_of_nonneg_right ((div_le_div_iff_of_pos_right hrot).mpr hab)
      (by norm_num)
  have h2 := h1.sublist (genPinsAux_sublist rot minSp evs st)
  rw [List.pairwise_map] at h2
  exact h2

/-- Pointwise combination of two adjacency chains. -/
theorem chain'_combine {α : Type} {R S T : α → α → Prop}
    (h : ∀ a b, R a b → S a b → T a b) :
    ∀ {l : List α}, l.Chain' R → l.Chain' S → l.Chain' T
  | [], _, _ => List.chain'_nil
  | [_], _, _ => List.chain'_singleton _
  | a :: b :: l, hR, hS => by
    rw [List.chain'_cons] at hR hS ⊢
    exact ⟨h a b hR.1 hS.1, chain'_combine h hR.2 hS.2⟩

/-- The run of the layout loop restricted to one note depends only on the
events of that note and on the note's entry in the last-angle map: other
pitches are never consulted by the collision check. -/
theorem genPinsAux_restrict (rot minSp : ℚ) (p : String) :
    ∀ (evs : List NoteEvent) (st st' : List (String × ℚ)),
      st.lookup p = st'.lookup p →
      ((genPinsAux rot minSp evs st).filter fun pin => pin.note == p) =
        ((genPinsAux rot minSp (evs.filter fun e => e.note == p) st').filter
          fun pin => pin.note == p)
  | [], _, _, _ => by simp [genPinsAux]
  | e :: rest, st, st', hst => by
    by_cases hp : e.note = p
    · have hcond : (e.note == p) = true := beq_iff_eq.mpr hp
      rw [List.filter_cons, hcond, if_pos rfl]
      subst hp
      by_cases hmem : e.note ∈ tineNotes
      · by_cases hskip : skipPin minSp (e.t / rot * 360) (List.lookup e.note st) = true
        · have hskip2 : skipPin minSp (e.t / rot * 360) (List.lookup e.note st') = true := by
            rw [← hst]; exact hskip
          simp only [genPinsAux, if_pos hmem, hskip, hskip2, if_true]
          exact genPinsAux_restrict rot minSp e.note rest st st' hst
        · rw [Bool.not_eq_true] at hskip
          have hskip2 : skipPin minSp (e.t / rot * 360) (List.lookup e.note st') = false := by
            rw [← hst]; exact hskip
          simp only [genPinsAux, if_pos hmem, hskip, hskip2, Bool.false_eq_true, if_false]
          rw [List.filter_cons, List.filter_cons]
          rw [mkPin_note, beq_self_eq_true, if_pos rfl, if_pos rfl]
          have hst2 : ((e.note, e.t / rot * 360) :: st).lookup e.note =
              ((e.note, e.t / rot * 360) :: st').lookup e.note := by
            rw [lookup_cons_self, lookup_cons_self]
          rw [genPinsAux_restrict rot minSp e.note rest
            ((e.note, e.t / rot * 360) :: st) ((e.note, e.t / rot * 360) :: st') hst2]
      · simp only [genPinsAux, if_neg hmem]
        exact genPinsAux_restrict rot minSp e.note rest st st' hst
    · have hcond : (e.note == p) = false := beq_eq_false_iff_ne.mpr hp
      rw [List.filter_cons, hcond, if_neg Bool.false_ne_true]
      by_cases hmem : e.note ∈ tineNotes
      · by_cases hskip : skipPin minSp (e.t / rot * 360) (List.lookup e.note st) = true
        · simp only [genPinsAux, if_pos hmem, hskip, if_true]
          exact genPinsAux_restrict rot minSp p rest st st' hst
        · rw [Bool.not_eq_true] at hskip
          simp only [genPinsAux, if_pos hmem, hskip, Bool.false_eq_true, if_false]
          rw [List.filter_cons, mkPin_note, hcond, if_neg Bool.false_ne_true]
          refine genPinsAux_restrict rot minSp p rest _ st' ?_
          rw [lookup_cons_ne (fun hc => hp hc.symm)]
          exact hst
      · simp only [genPinsAux, if_neg hmem]
        exact genPinsAux_restrict rot minSp p rest st st' hst

/-- C2: for every time-sorted input event sequence, consecutive same-pitch
pins from one layout run are separated by an angular gap of at least the
minimum spacing, and events of distinct pitches are never
collision-filtered against each other: the pins of pitch `p` produced
from the full input are exactly the pins produced from the input
restricted to pitch `p` — other pitches cannot suppress (or admit) a
`p`-pin. -/
theorem layout_spacing_and_lane_independence (rot minSp : ℚ)
    (events : List NoteEvent) (p : String) (hrot : 0 < rot)
    (hsort : events.Pairwise (fun a b => a.t ≤ b.t)) :
    ((genPins rot minSp events).filter fun pin => pin.note == p).Chain'
        (fun a b => minSp ≤ b.angle - a.angle) ∧
    genPins rot minSp (events.filter fun e => e.note == p) =
      (genPins rot minSp events).filter fun pin => pin.note == p := by
  constructor
  · have habs := (genPinsAux_chain_abs rot minSp p events []).1
    have hmono := ((genPinsAux_angles_mono rot minSp events [] hrot hsort).filter
      (fun pin => pin.note == p)).chain'
    refine chain'_combine (fun a b hR hS => ?_) habs hmono
    rw [abs_of_nonneg (sub_nonneg.mpr hS)] at hR
    exact hR
  · rw [genPins, genPins, genPinsAux_restrict rot minSp p events [] [] rfl]
    symm
    apply List.filter_eq_self.mpr
    intro pin hpin
    have h1 := (genPinsAux_sublist rot minSp (events.filter fun e => e.note == p) []).subset
      (List.mem_map_of_mem _ hpin)
    obtain ⟨e2, he2, heq⟩ := List.mem_map.mp h1
    have hnote : e2.note = pin.note := congrArg Prod.snd heq
    rw [← hnote]
    exact (List.mem_filter.mp he2).2

/-- Witness for `layout_spacing_and_lane_independence` on the Scenario A
events at pitch C4. -/
theorem layout_spacing_witness :
    ((genPins 20 3 [⟨0, "C4"⟩, ⟨1/20, "C4"⟩, ⟨2/5, "E5"⟩]).filter
        fun pin => pin.note == "C4").Chain' (fun a b => (3 : ℚ) ≤ b.angle - a.angle) ∧
    genPins 20 3 ([⟨0, "C4"⟩, ⟨1/20, "C4"⟩, ⟨2/5, "E5"⟩].filter fun e => e.note == "C4") =
      (genPins 20 3 [⟨0, "C4"⟩, ⟨1/20, "C4"⟩, ⟨2/5, "E5"⟩]).filter
        fun pin => pin.note == "C4" :=
  layout_spacing_and_lane_independence 20 3 _ "C4" (by norm_num)
    (by simp [List.pairwise_cons]; norm_num)

/-- `genPinsAux` with the last-angle dict represented as a pure function
`String → Option ℚ` instead of an insertion-ordered association list. -/
def genPinsAuxF (rot minSp : ℚ) : List NoteEvent → (String → Option ℚ) → List Pin
  | [], _ => []
  | e :: rest, lastA =>
    if e.note ∈ tineNotes then
      let angle : ℚ := e.t / rot * 360
      if skipPin minSp angle (lastA e.note) then
        genPinsAuxF rot minSp rest lastA
      else
        mkPin rot e :: genPinsAuxF rot minSp rest
          (fun n => if n = e.note then some angle else lastA n)
    else
      genPinsAuxF rot minSp rest lastA

def genPinsF (rot minSp : ℚ) (events : List NoteEvent) : List Pin :=
  genPinsAuxF rot minSp events (fun _ => none)

/-- The layout run reads its dict only pointwise, so the association-list
state and the extensional function state produce identical output. -/
theorem genPinsAux_eq_F (rot minSp : ℚ) :
    ∀ (evs : List NoteEvent) (st : List (String × ℚ)),
      genPinsAux rot minSp evs st = genPinsAuxF rot minSp evs (fun n => st.lookup n)
  | [], _ => rfl
  | e :: rest, st => by
    by_cases hmem : e.note ∈ tineNotes
    · simp only [genPinsAux, genPinsAuxF, if_pos hmem]
      by_cases hskip : skipPin minSp (e.t / rot * 360) (List.lookup e.note st) = true
      · rw [if_pos hskip, if_pos hskip]
        exact genPinsAux_eq_F rot minSp rest st
      · rw [Bool.not_eq_true] at hskip
        rw [if_neg (by rw [hskip]; exact Bool.false_ne_true),
          if_neg (by rw [hskip]; exact Bool.false_ne_true)]
        congr 1
        rw [genPinsAux_eq_F rot minSp rest ((e.note, e.t / rot * 360) :: st)]
        congr 1
        funext n
        by_cases hn : n = e.note
        · subst hn
          rw [lookup_cons_self, if_pos rfl]
        · rw [lookup_cons_ne hn, if_neg hn]
    · simp only [genPinsAux, genPinsAuxF, if_neg hmem]
      exact genPinsAux_eq_F rot minSp rest st

/-- C9: the layout algorithm is a pure function of its input — two runs on
equal inputs give equal pin sequences — and its output coincides with the
run over the extensional function-state `genPinsF`, so the result does not
depend on the association-list representation of the last-angle dict (no
randomness, no iteration-order dependence: the dict is only read
pointwise at the current event's pitch). -/
theorem layout_deterministic (rot minSp : ℚ) (e1 e2 : List NoteEvent) (h : e1 = e2) :
    genPins rot minSp e1 = genPins rot minSp e2 ∧
    genPins rot minSp e1 = genPinsF rot minSp e2 := by
  subst h
  exact ⟨rfl, genPinsAux_eq_F rot minSp e1 []⟩

/-- Witness for `layout_deterministic` on the Scenario A events. -/
theorem layout_deterministic_witness :
    genPins 20 3 [⟨0, "C4"⟩, ⟨2/5, "E5"⟩] = genPins 20 3 [⟨0, "C4"⟩, ⟨2/5, "E5"⟩] ∧
    genPins 20 3 [⟨0, "C4"⟩, ⟨2/5, "E5"⟩] = genPinsF 20 3 [⟨0, "C4"⟩, ⟨2/5, "E5"⟩] :=
  layout_deterministic 20 3 _ _ rfl

/-! ## Oracle response handling (`get_notes_from_text`, ai_note_builder.py)

The Anthropic API call is the external oracle; what the repository owns is
the handling of its textual response:

```python
if not response.strip().endswith('}'): raise ValueError("truncated")
parsed = json.loads(response)            # JSONDecodeError -> return []
note_events = parsed['notes']            # KeyError/TypeError -> except -> []
if not isinstance(note_events, list): raise ...
for event in note_events:
    if not isinstance(event, list) or len(event) != 2: raise ...
    if not isinstance(event[0], (int, float)) or not isinstance(event[1], str): raise ...
    if event[1] not in valid_notes: raise ...
    if event[0] < 0 or event[0] > duration: raise ...
return note_events                       # any raise -> except -> return []
```

JSON values are modelled by `JVal`; a response is either detectably
truncated, not valid JSON, or a parsed value.  `json.loads` keeps the last
occurrence of a duplicated object key, hence `dictLookup` searches the
field list from the right. -/

inductive JVal where
  | jnum (q : ℚ)
  | jbool (b : Bool)
  | jstr (s : String)
  | jarr (xs : List JVal)
  | jobj (fs : List (String × JVal))
  | jnull

/-- Outcome of the response text: fails the trailing-brace truncation
check, fails `json.loads`, or parses to a JSON value. -/
inductive OracleResponse where
  | truncated
  | invalidJson
  | parsed (v : JVal)

/-- Python dict lookup on a parsed JSON object (`json.loads` keeps the
last occurrence of a duplicated key). -/
def dictLookup (k : String) (fs : List (String × JVal)) : Option JVal :=
  fs.reverse.lookup k

/-- `isinstance(x, (int, float))` together with x's numeric value: a JSON
boolean passes, since Python's `bool` is a subclass of `int` with
`True == 1` and `False == 0`. -/
def pyNum : JVal → Option ℚ
  | .jnum q => some q
  | .jbool b => some (if b then 1 else 0)
  | _ => none

/-- `isinstance(x, str)` together with x's string value. -/
def pyStr : JVal → Option String
  | .jstr s => some s
  | _ => none

/-- The per-event checks of the validation loop: a two-element array, a
numeric time, a string pitch, pitch in the vocabulary, time in
`[0, duration]` (`event[0] < 0 or event[0] > duration` raises). -/
def eventAccepted (duration : ℚ) : JVal → Bool
  | .jarr [a, b] =>
    match pyNum a, pyStr b with
    | some t, some s => decide (s ∈ tineNotes ∧ 0 ≤ t ∧ t ≤ duration)
    | _, _ => false
  | _ => false

/-- The `notes` array of a response, when the response parses to an object
whose `notes` field is an array (`parsed['notes']` raising KeyError or
TypeError, and the `isinstance(note_events, list)` check, all land in the
same `except` as every other failure). -/
def notesField : OracleResponse → Option (List JVal)
  | .parsed (.jobj fs) =>
    match dictLookup "notes" fs with
    | some (.jarr evs) => some evs
    | _ => none
  | _ => none

/-- `get_notes_from_text` after the API call: any failure returns `[]`;
success returns the parsed `notes` array unchanged. -/
def getNotesFromResponse (resp : OracleResponse) (duration : ℚ) : List JVal :=
  match notesField resp with
  | some evs => if evs.all (eventAccepted duration) then evs else []
  | none => []

/-- The code's acceptance condition as a whole. -/
def pyAccepted (resp : OracleResponse) (duration : ℚ) : Bool :=
  match notesField resp with
  | some evs => evs.all (eventAccepted duration)
  | none => false

/-- Schema validity in the claim's words ("wrong event shape or types,
pitch outside the vocabulary, time outside [0, duration]"): a `[time,
pitch]` pair whose time is a JSON *number*.  Defined from the spec's
wording, to be compared with the code's `eventAccepted`. -/
def schemaValidEvent (duration : ℚ) : JVal → Bool
  | .jarr [.jnum t, .jstr s] => decide (s ∈ tineNotes ∧ 0 ≤ t ∧ t ≤ duration)
  | _ => false

/-- Schema validity of a whole response, per the spec's wording. -/
def schemaValidResponse (resp : OracleResponse) (duration : ℚ) : Bool :=
  match notesField resp with
  | some evs => evs.all (schemaValidEvent duration)
  | none => false

/-- C5 counterexample: the response
`{"notes": [[true, "C4"]]}` violates the claim's schema — its time is a
JSON boolean, not a number — yet the code returns the event: `json.loads`
maps `true` to Python's `True` and `isinstance(True, (int, float))` holds
(`bool` subclasses `int`), `True < 0` and `True > 20` are both false, so
validation passes and the non-empty list is returned. -/
theorem oracle_boolean_time_counterexample :
    schemaValidResponse
        (.parsed (.jobj [("notes", .jarr [.jarr [.jbool true, .jstr "C4"]])])) 20 = false ∧
    getNotesFromResponse
        (.parsed (.jobj [("notes", .jarr [.jarr [.jbool true, .jstr "C4"]])])) 20 =
      [.jarr [.jbool true, .jstr "C4"]] := by
  constructor
  · simp [schemaValidResponse, notesField, dictLookup, schemaValidEvent, List.lookup]
  · simp [getNotesFromResponse, notesField, dictLookup, eventAccepted, pyNum, pyStr,
      tineNotes, List.lookup]

/-- C5 amended: every response that is truncated, not valid JSON, lacks an
object with a `notes` array, or contains any event the validation loop
rejects yields the empty list, and a non-empty result is always the whole
`notes` array, never a proper prefix.  The only divergence from the
claim's schema wording is that a JSON boolean in the time position counts
as a number (Python's `bool` is an `int` subclass). -/
theorem oracle_fail_closed_amended (resp : OracleResponse) (duration : ℚ)
    (evs : List JVal) :
    (pyAccepted resp duration = false → getNotesFromResponse resp duration = []) ∧
    (notesField resp = some evs →
      getNotesFromResponse resp duration = [] ∨
      getNotesFromResponse resp duration = evs) := by
  constructor
  · intro hfail
    cases hnf : notesField resp with
    | none => simp only [getNotesFromResponse, hnf]
    | some evs2 =>
      simp only [pyAccepted, hnf] at hfail
      simp only [getNotesFromResponse, hnf, hfail, Bool.false_eq_true, if_false]
  · intro hnf
    simp only [getNotesFromResponse, hnf]
    by_cases hall : evs.all (eventAccepted duration) = true
    · rw [if_pos hall]
      exact Or.inr rfl
    · rw [Bool.not_eq_true] at hall
      rw [hall]
      simp

/-- Witness for `oracle_fail_closed_amended`: a truncated response yields
`[]`, and a well-formed one-event response yields `[]` or the whole
array. -/
theorem oracle_fail_closed_witness :
    getNotesFromResponse .truncated 20 = [] ∧
    (getNotesFromResponse
        (.parsed (.jobj [("notes", .jarr [.jarr [.jnum 1, .jstr "C4"]])])) 20 = [] ∨
     getNotesFromResponse
        (.parsed (.jobj [("notes", .jarr [.jarr [.jnum 1, .jstr "C4"]])])) 20 =
       [.jarr [.jnum 1, .jstr "C4"]]) :=
  ⟨(oracle_fail_closed_amended .truncated 20 []).1 rfl,
   (oracle_fail_closed_amended
      (.parsed (.jobj [("notes", .jarr [.jarr [.jnum 1, .jstr "C4"]])])) 20
      [.jarr [.jnum 1, .jstr "C4"]]).2 rfl⟩

/-- Numeric time value of a `[time, pitch]` event. -/
def eventTimeVal : JVal → Option ℚ
  | .jarr [a, _] => pyNum a
  | _ => none

/-- Pitch string of a `[time, pitch]` event. -/
def eventNoteVal : JVal → Option String
  | .jarr [_, b] => pyStr b
  | _ => none

/-- Every event the validation loop accepts is a `[time, pitch]` pair with
a numeric time in `[0, duration]` and a vocabulary pitch. -/
theorem eventAccepted_spec (duration : ℚ) (v : JVal)
    (h : eventAccepted duration v = true) :
    ∃ t s, eventTimeVal v = some t ∧ eventNoteVal v = some s ∧
      s ∈ tineNotes ∧ 0 ≤ t ∧ t ≤ duration := by
  cases v with
  | jarr xs =>
    rcases xs with _ | ⟨a, _ | ⟨b, _ | ⟨c, rest⟩⟩⟩
    · simp [eventAccepted] at h
    · simp [eventAccepted] at h
    · cases hpa : pyNum a with
      | none => simp [eventAccepted, hpa] at h
      | some t =>
        cases hpb : pyStr b with
        | none => simp [eventAccepted, hpa, hpb] at h
        | some s =>
          simp only [eventAccepted, hpa, hpb, decide_eq_true_eq] at h
          exact ⟨t, s, by simp [eventTimeVal, hpa], by simp [eventNoteVal, hpb],
            h.1, h.2.1, h.2.2⟩
    · simp [eventAccepted] at h
  | jnum q => simp [eventAccepted] at h
  | jbool b => simp [eventAccepted] at h
  | jstr s => simp [eventAccepted] at h
  | jobj fs => simp [eventAccepted] at h
  | jnull => simp [eventAccepted] at h

/-- C6 amended: every event of an oracle result has a vocabulary pitch
and a numeric time value in `[0, duration]`.  The third clause of the
producer contract — minimum same-pitch temporal spacing — is requested in
the prompt but never validated, and does not hold of all non-empty
results. -/
theorem oracle_output_vocab_and_range (resp : OracleResponse) (duration : ℚ) :
    ∀ v ∈ getNotesFromResponse resp duration, ∃ t s,
      eventTimeVal v = some t ∧ eventNoteVal v = some s ∧
      s ∈ tineNotes ∧ 0 ≤ t ∧ t ≤ duration := by
  intro v hv
  cases hnf : notesField resp with
  | none =>
    simp only [getNotesFromResponse, hnf] at hv
    exact absurd hv (List.not_mem_nil v)
  | some evs =>
    simp only [getNotesFromResponse, hnf] at hv
    by_cases hall : evs.all (eventAccepted duration) = true
    · rw [if_pos hall] at hv
      exact eventAccepted_spec duration v (List.all_eq_true.mp hall v hv)
    · rw [Bool.not_eq_true] at hall
      rw [hall] at hv
      simp at hv

/-- Witness for `oracle_output_vocab_and_range` on a one-event response. -/
theorem oracle_output_vocab_witness :
    ∃ t s, eventTimeVal (JVal.jarr [.jnum 1, .jstr "C4"]) = some t ∧
      eventNoteVal (JVal.jarr [.jnum 1, .jstr "C4"]) = some s ∧
      s ∈ tineNotes ∧ 0 ≤ t ∧ t ≤ (20 : ℚ) :=
  oracle_output_vocab_and_range
    (.parsed (.jobj [("notes", .jarr [.jarr [.jnum 1, .jstr "C4"]])])) 20
    (.jarr [.jnum 1, .jstr "C4"])
    (by simp [getNotesFromResponse, notesField, dictLookup, eventAccepted, pyNum,
      pyStr, tineNotes, List.lookup])

/-- C6 counterexample: the validation checks vocabulary membership and
time range, but no temporal spacing: two C4 events 0.01 s apart pass and
are returned as a non-empty sequence, violating the 0.15 s minimum
spacing of the producer contract. -/
theorem oracle_no_spacing_counterexample :
    getNotesFromResponse
        (.parsed (.jobj [("notes", .jarr
          [.jarr [.jnum 0, .jstr "C4"], .jarr [.jnum (1/100), .jstr "C4"]])])) 20 =
      [.jarr [.jnum 0, .jstr "C4"], .jarr [.jnum (1/100), .jstr "C4"]] ∧
    eventTimeVal (JVal.jarr [.jnum (1/100), .jstr "C4"]) = some (1/100) ∧
    eventNoteVal (JVal.jarr [.jnum 0, .jstr "C4"]) =
      eventNoteVal (JVal.jarr [.jnum (1/100), .jstr "C4"]) ∧
    (1 : ℚ)/100 - 0 < 15/100 := by
  refine ⟨?_, rfl, rfl, by norm_num⟩
  simp [getNotesFromResponse, notesField, dictLookup, eventAccepted, pyNum, pyStr,
    tineNotes, List.lookup]
  norm_num

end MusicBox
